import Mathlib

set_option maxRecDepth 10000

/-! Verification of the segmentation core of the SAMsegmenting image editor.

The embedding follows src/src/services/aiService.ts (region grower
smartFloodFill, builder advancedSmartSegmentation, morphological
dilateMask), the layer-splitting loops of the sam2-run branch of
handleStageClick in src/src/components/ImageEditor/Canvas.tsx, and the
layer-list actions of the zustand editor store.

Conventions of the embedding:
- An ImageData value is a width times height RGBA byte grid, row major,
  4 bytes per pixel, modelled as a total function from byte index to byte.
- Writing to a JS typed array at an out-of-range index is silently
  discarded; writeByte models exactly that.
- Reading a JS typed array out of range yields undefined; every read the
  algorithms perform in a comparison position treats undefined the same
  way as 0 (undefined greater-than 128 and 0 greater-than 128 are both
  false), so readByte returns 0 out of range.
- JS numbers are idealised as exact rationals; the test
  sqrt(s) / 255 <= t of the source is embedded in its equivalent squared
  form 0 <= t and s <= (255 * t) ^ 2.
- The BFS loop of smartFloodFill is given explicit fuel
  5 * width * height + 1; the measure argument below shows this fuel is
  never exhausted, so the embedding computes the same result as the
  unbounded JS loop.
-/

/-- RGBA pixel buffer, the JS ImageData object: a width times height grid
of RGBA samples, row major, 4 bytes per pixel. -/
structure ImageData where
  width : ℕ
  height : ℕ
  data : ℕ → ℕ

/-- Write one byte; out-of-range writes are discarded, as on a JS
Uint8ClampedArray. -/
def writeByte (b : ImageData) (i : ℤ) (v : ℕ) : ImageData :=
  if 0 ≤ i ∧ i < 4 * b.width * b.height then
    ⟨b.width, b.height, fun j => if (j : ℤ) = i then v else b.data j⟩
  else b

/-- Read one byte; out-of-range reads give 0, observationally equal to the
undefined of JS in every comparison the source performs. -/
def readByte (b : ImageData) (i : ℤ) : ℕ :=
  if 0 ≤ i ∧ i < 4 * b.width * b.height then b.data i.toNat else 0

/-- Zero-initialised buffer, the result of new ImageData(w, h). -/
def blankImage (w h : ℕ) : ImageData := ⟨w, h, fun _ => 0⟩

/-- A coordinate is inside the image bounds. -/
def inBoundsC (w h : ℕ) (p : ℤ × ℤ) : Prop :=
  0 ≤ p.1 ∧ p.1 < (w : ℤ) ∧ 0 ≤ p.2 ∧ p.2 < (h : ℤ)

instance (w h : ℕ) (p : ℤ × ℤ) : Decidable (inBoundsC w h p) :=
  inferInstanceAs (Decidable (_ ∧ _ ∧ _ ∧ _))

/-- Row-major pixel number y * w + x of a coordinate. -/
def pixNum (w : ℕ) (p : ℤ × ℤ) : ℤ := p.2 * (w : ℤ) + p.1

/-- Squared RGB distance between two colors, the radicand of the
colorDistance helper of smartFloodFill. -/
def colorDistSq (r g b tR tG tB : ℕ) : ℤ :=
  ((r : ℤ) - tR) ^ 2 + ((g : ℤ) - tG) ^ 2 + ((b : ℤ) - tB) ^ 2

/-- The comparison sqrt(s) / 255 <= t of the source.  Both sides are
nonnegative exactly when 0 <= t, and then squaring and clearing the
denominator of t are monotone, giving the integer form below; the lemma
colorDistanceLE_iff proves it equal to the direct squared form.  The
integer form is used so that concrete runs reduce inside the kernel. -/
def colorDistanceLE (s : ℤ) (t : ℚ) : Prop :=
  0 ≤ t ∧ s * (t.den : ℤ) ^ 2 ≤ 255 ^ 2 * t.num ^ 2

instance (s : ℤ) (t : ℚ) : Decidable (colorDistanceLE s t) :=
  inferInstanceAs (Decidable (_ ∧ _))

/-- The while loop of smartFloodFill: dequeue from the front, skip visited
or out-of-bounds coordinates, mark visited, and on a passing color
distance record the pixel and enqueue its four neighbors at the back.
Fuel is explicit; smartFloodFill supplies enough for the loop to drain
its queue (floodLoop_measure below). -/
def floodLoop (data : ℕ → ℕ) (w h : ℕ) (tR tG tB : ℕ) (t : ℚ) :
    ℕ → List (ℤ × ℤ) → List (ℤ × ℤ) → List (ℤ × ℤ) → List (ℤ × ℤ)
  | 0, _, _, regions => regions
  | _ + 1, _, [], regions => regions
  | fuel + 1, visited, (x, y) :: rest, regions =>
    if (x, y) ∈ visited ∨ x < 0 ∨ (w : ℤ) ≤ x ∨ y < 0 ∨ (h : ℤ) ≤ y then
      floodLoop data w h tR tG tB t fuel visited rest regions
    else
      let idx := ((y * (w : ℤ) + x) * 4).toNat
      if colorDistanceLE (colorDistSq (data idx) (data (idx + 1)) (data (idx + 2)) tR tG tB) t then
        floodLoop data w h tR tG tB t fuel ((x, y) :: visited)
          (rest ++ [(x + 1, y), (x - 1, y), (x, y + 1), (x, y - 1)]) (regions ++ [(x, y)])
      else
        floodLoop data w h tR tG tB t fuel ((x, y) :: visited) rest regions

/-- The smartFloodFill region grower: reads the target color at the seed
index and runs the BFS loop from the seed singleton queue. -/
def smartFloodFill (data : ℕ → ℕ) (w h : ℕ) (point : ℤ × ℤ) (t : ℚ) : List (ℤ × ℤ) :=
  let targetIdx := ((point.2 * (w : ℤ) + point.1) * 4).toNat
  floodLoop data w h (data targetIdx) (data (targetIdx + 1)) (data (targetIdx + 2)) t
    (5 * w * h + 1) [] [point] []

/-- The in-bounds coordinates as a finite set, for the loop measure. -/
def inBFinset (w h : ℕ) : Finset (ℤ × ℤ) :=
  Finset.Ico (0 : ℤ) (w : ℤ) ×ˢ Finset.Ico (0 : ℤ) (h : ℤ)

/-- Number of in-bounds coordinates not yet visited. -/
def unvisited (w h : ℕ) (v : List (ℤ × ℤ)) : ℕ :=
  ((inBFinset w h).filter (fun p => p ∉ v)).card

/-- The four 4-connected neighbors a visit enqueues, in source order. -/
def nbrList (p : ℤ × ℤ) : List (ℤ × ℤ) :=
  [(p.1 + 1, p.2), (p.1 - 1, p.2), (p.1, p.2 + 1), (p.1, p.2 - 1)]

/-- One in-bounds 4-connected step. -/
def NbrIn (w h : ℕ) (p q : ℤ × ℤ) : Prop := inBoundsC w h q ∧ q ∈ nbrList p

/-- Reachability through in-bounds 4-connected steps. -/
def ReachIn (w h : ℕ) : ℤ × ℤ → ℤ × ℤ → Prop := Relation.ReflTransGen (NbrIn w h)

/-- A single-color image, stated with bounded natural quantifiers so it is
decidable on concrete images: every in-bounds pixel has RGB channels equal
to c. -/
def UniformImage (data : ℕ → ℕ) (w h : ℕ) (c : ℕ × ℕ × ℕ) : Prop :=
  ∀ x, x < w → ∀ y, y < h →
    data ((y * w + x) * 4) = c.1 ∧
    data ((y * w + x) * 4 + 1) = c.2.1 ∧
    data ((y * w + x) * 4 + 2) = c.2.2

instance (data : ℕ → ℕ) (w h : ℕ) (c : ℕ × ℕ × ℕ) :
    Decidable (UniformImage data w h c) := by
  unfold UniformImage
  infer_instance

/-- Write the four RGBA bytes of pixel number pn, in source order
idx, idx + 1, idx + 2, idx + 3 with idx = pn * 4. -/
def writeRGBA (b : ImageData) (pn : ℤ) (v0 v1 v2 v3 : ℕ) : ImageData :=
  writeByte (writeByte (writeByte (writeByte b (pn * 4) v0) (pn * 4 + 1) v1) (pn * 4 + 2) v2)
    (pn * 4 + 3) v3

/-- The channel value selected by the byte offset within a pixel. -/
def chanVal (v0 v1 v2 v3 : ℕ) (c : ℕ) : ℕ :=
  if c = 0 then v0 else if c = 1 then v1 else if c = 2 then v2 else v3

/-- Insertion-ordered union: newRegions.forEach(r => regions.add(r)); a JS
Set ignores a duplicate and appends a new key at the end. -/
def setUnion (acc l : List (ℤ × ℤ)) : List (ℤ × ℤ) :=
  l.foldl (fun a k => if k ∈ a then a else a ++ [k]) acc

/-- Set subtraction: negativeRegions.forEach(r => regions.delete(r)). -/
def setDiff (acc l : List (ℤ × ℤ)) : List (ℤ × ℤ) :=
  l.foldl (fun a k => a.filter (fun q => decide (q ≠ k))) acc

/-- Options record of advancedSmartSegmentation; a none field models an
absent (undefined) JS option. -/
structure SegOptions where
  includeEdges : Option Bool
  threshold : Option ℚ
  dilate : Option ℕ
  positivePoints : Option (List (ℤ × ℤ))
  negativePoints : Option (List (ℤ × ℤ))

/-- Accumulated region set of the builder: union the grower results of
the positive points at threshold times 0.8 into the accumulator, then,
after all positives, delete the grower results of the negative points at
threshold times 0.6. -/
def buildRegions (data : ℕ → ℕ) (w h : ℕ) (threshold : ℚ)
    (positives negatives : List (ℤ × ℤ)) : List (ℤ × ℤ) :=
  let pos := positives.foldl
    (fun acc pnt => setUnion acc (smartFloodFill data w h pnt (threshold * 0.8))) []
  negatives.foldl
    (fun acc pnt => setDiff acc (smartFloodFill data w h pnt (threshold * 0.6))) pos

/-- Rasterisation of the region set into a fresh mask:
regions.forEach writes the four bytes 255 at each region pixel. -/
def rasterizeRegions (w h : ℕ) (regions : List (ℤ × ℤ)) : ImageData :=
  regions.foldl (fun mask p => writeRGBA mask (pixNum w p) 255 255 255 255) (blankImage w h)

/-- Integer interval [a, a + n) as a list, the index sequence of a JS for
loop. -/
def intRange (a : ℤ) (n : ℕ) : List ℤ := (List.range n).map (fun k : ℕ => a + (k : ℤ))

/-- The interior coordinates 1 <= x < w - 1, 1 <= y < h - 1, enumerated in
the row-major order of the two nested for loops of dilateMask (y outer,
x inner); the border rows and columns are never visited. -/
def interiorCoords (w h : ℕ) : List (ℤ × ℤ) :=
  (intRange 1 (h - 2)).flatMap (fun y => (intRange 1 (w - 2)).map (fun x => (x, y)))

/-- A coordinate strictly inside the border. -/
def interiorC (w h : ℕ) (p : ℤ × ℤ) : Prop :=
  1 ≤ p.1 ∧ p.1 < (w : ℤ) - 1 ∧ 1 ≤ p.2 ∧ p.2 < (h : ℤ) - 1

instance (w h : ℕ) (p : ℤ × ℤ) : Decidable (interiorC w h p) :=
  inferInstanceAs (Decidable (_ ∧ _ ∧ _ ∧ _))

/-- The 3 by 3 neighborhood test of dilateMask: some byte at the alpha
offset of a neighbor pixel of (x, y) exceeds 128.  The source iterates dy
then dx from -1 to 1 with early exit; only existence matters. -/
def hasSelectedNbr (m : ImageData) (x y : ℤ) : Prop :=
  ∃ dy ∈ [(-1 : ℤ), 0, 1], ∃ dx ∈ [(-1 : ℤ), 0, 1],
    128 < readByte m (((y + dy) * m.width + (x + dx)) * 4 + 3)

instance (m : ImageData) (x y : ℤ) : Decidable (hasSelectedNbr m x y) := by
  unfold hasSelectedNbr
  infer_instance

/-- One iteration of dilateMask: a fresh zero buffer where every interior
pixel with a selected 3 by 3 neighborhood in the previous mask receives
the highlight bytes (255, 100, 255, 180); all other pixels, including the
whole border, stay zero. -/
def dilateStep (m : ImageData) : ImageData :=
  (interiorCoords m.width m.height).foldl
    (fun acc p =>
      if hasSelectedNbr m p.1 p.2 then writeRGBA acc (pixNum m.width p) 255 100 255 180
      else acc)
    (blankImage m.width m.height)

/-- dilateMask: iterate dilateStep; zero iterations return the initial
copy of the mask, which in this pure embedding is the mask itself. -/
def dilateMask (mask : ImageData) (iterations : ℕ) : ImageData :=
  (List.range iterations).foldl (fun cur _ => dilateStep cur) mask

/-- advancedSmartSegmentation: threshold defaults to 0.15 and dilate to 3;
a missing positivePoints option falls back to the click point, but an
explicitly empty list stays empty because the JS or-expression keeps a
truthy empty array; the region set is built, rasterised into a mask, and
dilated when the dilate count is positive. -/
def advancedSmartSegmentation (imageData : ImageData) (clickPoint : ℤ × ℤ)
    (options : SegOptions) : ImageData :=
  let threshold := options.threshold.getD 0.15
  let dilate := options.dilate.getD 3
  let positivePoints := options.positivePoints.getD [clickPoint]
  let negativePoints := options.negativePoints.getD []
  let regions := buildRegions imageData.data imageData.width imageData.height threshold
    positivePoints negativePoints
  let mask := rasterizeRegions imageData.width imageData.height regions
  if 0 < dilate then dilateMask mask dilate else mask

/-- Alpha byte of a pixel coordinate. -/
def alphaAt (b : ImageData) (p : ℤ × ℤ) : ℕ := readByte b (pixNum b.width p * 4 + 3)

/-- The selected-pixel set of a mask: in-bounds pixels whose alpha byte
exceeds 128, the selection criterion dilateMask itself uses. -/
def selectedPx (b : ImageData) (p : ℤ × ℤ) : Prop :=
  inBoundsC b.width b.height p ∧ 128 < alphaAt b p

instance (b : ImageData) (p : ℤ × ℤ) : Decidable (selectedPx b p) :=
  inferInstanceAs (Decidable (_ ∧ _))

/-- The RGBA quadruple of a pixel coordinate. -/
def pixelBytes (b : ImageData) (p : ℤ × ℤ) : ℕ × ℕ × ℕ × ℕ :=
  (readByte b (pixNum b.width p * 4), readByte b (pixNum b.width p * 4 + 1),
   readByte b (pixNum b.width p * 4 + 2), readByte b (pixNum b.width p * 4 + 3))

/-- The object-layer masking loop of the sam2-run branch of
handleStageClick: for i stepping by 4 over the mask bytes (i = 4k), when
the mask red byte at i is zero, the source writes alpha 0 at byte
i * 4 + 3 — the alpha byte of pixel i, not of pixel i / 4.  The loop is
embedded exactly as written, including this index slip; out-of-range
writes are discarded as on a typed array. -/
def applyMaskToObject (mask img : ImageData) : ImageData :=
  (List.range (mask.width * mask.height)).foldl
    (fun acc k =>
      if mask.data (4 * k) = 0 then writeByte acc (((4 * k : ℕ) : ℤ) * 4 + 3) 0 else acc)
    img

/-- The background-layer masking loop: same traversal, writing alpha 0 at
byte i * 4 + 3 when the mask red byte at i is positive. -/
def applyMaskToBackground (mask img : ImageData) : ImageData :=
  (List.range (mask.width * mask.height)).foldl
    (fun acc k =>
      if 0 < mask.data (4 * k) then writeByte acc (((4 * k : ℕ) : ℤ) * 4 + 3) 0 else acc)
    img

/-- The layer split of the sam2-run branch: both layers start as copies of
the drawn image and receive the two masking loops. -/
def splitLayers (img mask : ImageData) : ImageData × ImageData :=
  (applyMaskToObject mask img, applyMaskToBackground mask img)

/-- A layer record of the editor store. -/
structure EditorLayer where
  id : String
  name : String
  visible : Bool
  locked : Bool
  opacity : ℕ
  blendMode : String
  thumbnail : Option String
  imageData : Option ImageData

/-- The slice of state the segmentation success path touches: the layer
list and active layer id of the zustand store, and the Canvas-local SAM
point list (a point is a coordinate with a negative flag). -/
structure EditorState where
  layers : List EditorLayer
  activeLayerId : Option String
  samPoints : List (ℤ × ℤ × Bool)

/-- The addLayer store action for the call shape of the sam2-run branch
(name, thumbnail and imageData supplied, other fields defaulted): the new
layer is appended at the end of the list and becomes active.  The random
UUID is a parameter of the embedding. -/
def addLayer (s : EditorState) (newId layerName thumbnail : String)
    (imageData : ImageData) : EditorState :=
  ⟨s.layers ++ [⟨newId, layerName, true, false, 100, "normal", some thumbnail,
      some imageData⟩],
    some newId, s.samPoints⟩

/-- The removeLayer store action: drop every layer with the given id and
move the active id to the first remaining layer when the active one was
removed. -/
def removeLayer (s : EditorState) (layerId : String) : EditorState :=
  let newLayers := s.layers.filter (fun l => decide (l.id ≠ layerId))
  ⟨newLayers,
    if s.activeLayerId = some layerId then newLayers.head?.map (fun l => l.id)
    else s.activeLayerId,
    s.samPoints⟩

/-- The success path of the sam2-run branch after compositing: remove the
prior background layer when one exists, append the background layer, then
the object layer, then clear the SAM points. -/
def segmentationSuccess (s : EditorState) (bgId objId bgThumb objThumb : String)
    (bgData objData : ImageData) : EditorState :=
  let s1 := if s.layers.any (fun l => decide (l.id = "background"))
    then removeLayer s "background" else s
  let s2 := addLayer s1 bgId "Background (Unselected)" bgThumb bgData
  let s3 := addLayer s2 objId "Selected Object" objThumb objData
  ⟨s3.layers, s3.activeLayerId, []⟩

lemma colorDistanceLE_iff (s : ℤ) (t : ℚ) :
    colorDistanceLE s t ↔ (0 ≤ t ∧ (s : ℚ) ≤ (255 * t) ^ 2) := by
  unfold colorDistanceLE
  refine and_congr_right fun _ => ?_
  have hden : (0 : ℚ) < ((t.den : ℚ)) ^ 2 := by
    have := t.den_pos
    positivity
  have hden0 : ((t.den : ℚ)) ≠ 0 := by
    have := t.den_pos
    positivity
  have hmul : (t : ℚ) * (t.den : ℚ) = (t.num : ℚ) := by
    nth_rewrite 1 [← Rat.num_div_den t]
    exact div_mul_cancel₀ _ hden0
  have hkey : (255 * t) ^ 2 * ((t.den : ℚ)) ^ 2 = 255 ^ 2 * (t.num : ℚ) ^ 2 := by
    calc (255 * t) ^ 2 * ((t.den : ℚ)) ^ 2
        = 255 ^ 2 * ((t : ℚ) * (t.den : ℚ)) ^ 2 := by ring
    _ = 255 ^ 2 * (t.num : ℚ) ^ 2 := by rw [hmul]
  constructor
  · intro hle
    have h2 : (s : ℚ) * ((t.den : ℚ)) ^ 2 ≤ 255 ^ 2 * (t.num : ℚ) ^ 2 := by
      exact_mod_cast hle
    rw [← hkey] at h2
    exact le_of_mul_le_mul_right h2 hden
  · intro hle
    have h2 : (s : ℚ) * ((t.den : ℚ)) ^ 2 ≤ 255 ^ 2 * (t.num : ℚ) ^ 2 := by
      rw [← hkey]
      exact mul_le_mul_of_nonneg_right hle (le_of_lt hden)
    exact_mod_cast h2

/-- The squared color distance of zero passes the test exactly when the
threshold is nonnegative. -/
lemma colorDistanceLE_zero {t : ℚ} (ht : 0 ≤ t) : colorDistanceLE 0 t := by
  refine ⟨ht, ?_⟩
  simp only [zero_mul]
  positivity

lemma mem_inBFinset {w h : ℕ} {p : ℤ × ℤ} : p ∈ inBFinset w h ↔ inBoundsC w h p := by
  cases p with
  | mk x y =>
    simp [inBFinset, Finset.mem_product, Finset.mem_Ico, inBoundsC, and_assoc]

lemma unvisited_cons {w h : ℕ} {v : List (ℤ × ℤ)} {p : ℤ × ℤ}
    (hp : inBoundsC w h p) (hnv : p ∉ v) :
    unvisited w h (p :: v) + 1 = unvisited w h v := by
  have hset : (inBFinset w h).filter (fun q => q ∉ p :: v)
      = ((inBFinset w h).filter (fun q => q ∉ v)).erase p := by
    ext q
    simp only [Finset.mem_filter, Finset.mem_erase, List.mem_cons]
    tauto
  have hmem : p ∈ (inBFinset w h).filter (fun q => q ∉ v) := by
    simp [Finset.mem_filter, mem_inBFinset, hp, hnv]
  have hcard := Finset.card_erase_of_mem hmem
  have hpos : 0 < ((inBFinset w h).filter (fun q => q ∉ v)).card :=
    Finset.card_pos.mpr ⟨p, hmem⟩
  unfold unvisited
  rw [hset, hcard]
  omega

lemma inBFinset_card (w h : ℕ) : (inBFinset w h).card = w * h := by
  simp [inBFinset, Int.card_Ico]

lemma unvisited_nil (w h : ℕ) : unvisited w h [] = w * h := by
  unfold unvisited
  rw [Finset.filter_true_of_mem, inBFinset_card]
  intro x _
  exact List.not_mem_nil x

section FloodLemmas

variable (data : ℕ → ℕ) (w h : ℕ) (tR tG tB : ℕ) (t : ℚ)

/-- Region soundness: the loop only ever appends in-bounds coordinates. -/
lemma floodLoop_sound : ∀ (fuel : ℕ) (visited queue regions : List (ℤ × ℤ)),
    (∀ p ∈ regions, inBoundsC w h p) →
    ∀ p ∈ floodLoop data w h tR tG tB t fuel visited queue regions, inBoundsC w h p := by
  intro fuel
  induction fuel with
  | zero => intro visited queue regions hreg p hp; exact hreg p hp
  | succ n ih =>
    intro visited queue regions hreg p hp
    match queue with
    | [] => exact hreg p hp
    | (x, y) :: rest =>
      rw [floodLoop] at hp
      split at hp
      · exact ih visited rest regions hreg p hp
      · rename_i hdrop
        push_neg at hdrop
        dsimp only at hp
        split at hp
        · refine ih _ _ _ ?_ p hp
          intro q hq
          rcases List.mem_append.mp hq with hq | hq
          · exact hreg q hq
          · have : q = (x, y) := by simpa using hq
            subst this
            exact ⟨hdrop.2.1, hdrop.2.2.1, hdrop.2.2.2.1, hdrop.2.2.2.2⟩
        · exact ih _ _ _ hreg p hp

/-- The accumulated region list is only ever extended. -/
lemma floodLoop_regions_subset : ∀ (fuel : ℕ) (visited queue regions : List (ℤ × ℤ)),
    regions ⊆ floodLoop data w h tR tG tB t fuel visited queue regions := by
  intro fuel
  induction fuel with
  | zero => intro visited queue regions; exact fun _ hp => hp
  | succ n ih =>
    intro visited queue regions
    match queue with
    | [] => exact fun _ hp => hp
    | (x, y) :: rest =>
      rw [floodLoop]
      split
      · exact ih visited rest regions
      · dsimp only
        split
        · exact fun p hp =>
            ih _ _ _ (List.mem_append.mpr (Or.inl hp))
        · exact ih _ _ _

/-- A queue that is already empty returns the regions unchanged, for any
fuel. -/
lemma floodLoop_nil_queue : ∀ (fuel : ℕ) (visited regions : List (ℤ × ℤ)),
    floodLoop data w h tR tG tB t fuel visited [] regions = regions := by
  intro fuel visited regions
  cases fuel with
  | zero => rfl
  | succ n => rfl

/-- Seed persistence invariant: as long as the seed is already recorded,
or is unvisited and still queued while enough fuel remains, the seed ends
up in the result.  The hypothesis hdist states that the color distance
test passes at the seed, which holds because the target color is read at
the seed index. -/
lemma floodLoop_seed (seed : ℤ × ℤ) (hseed : inBoundsC w h seed)
    (hdist : colorDistanceLE (colorDistSq
      (data ((seed.2 * (w : ℤ) + seed.1) * 4).toNat)
      (data (((seed.2 * (w : ℤ) + seed.1) * 4).toNat + 1))
      (data (((seed.2 * (w : ℤ) + seed.1) * 4).toNat + 2)) tR tG tB) t) :
    ∀ (fuel : ℕ) (visited queue regions : List (ℤ × ℤ)),
    5 * unvisited w h visited + queue.length ≤ fuel →
    (seed ∈ regions ∨ (seed ∉ visited ∧ seed ∈ queue)) →
    seed ∈ floodLoop data w h tR tG tB t fuel visited queue regions := by
  intro fuel
  induction fuel with
  | zero =>
    intro visited queue regions hfuel hinv
    have hq : queue = [] := by
      cases queue with
      | nil => rfl
      | cons a l => simp at hfuel
    subst hq
    rcases hinv with hr | ⟨_, hq⟩
    · exact hr
    · exact absurd hq (List.not_mem_nil seed)
  | succ n ih =>
    intro visited queue regions hfuel hinv
    match queue with
    | [] =>
      rw [floodLoop_nil_queue]
      rcases hinv with hr | ⟨_, hq⟩
      · exact hr
      · exact absurd hq (List.not_mem_nil seed)
    | (x, y) :: rest =>
      rw [floodLoop]
      split
      · rename_i hdrop
        refine ih visited rest regions ?_ ?_
        · simp only [List.length_cons] at hfuel
          omega
        · rcases hinv with hr | ⟨hv, hq⟩
          · exact Or.inl hr
          · refine Or.inr ⟨hv, ?_⟩
            rcases List.mem_cons.mp hq with heq | hmem
            · exfalso
              rcases hdrop with hvis | hb
              · exact hv (heq ▸ hvis)
              · have hxb : inBoundsC w h (x, y) := heq ▸ hseed
                rcases hb with hb | hb | hb | hb
                · exact absurd hxb.1 (not_le.mpr hb)
                · exact absurd hxb.2.1 (not_lt.mpr hb)
                · exact absurd hxb.2.2.1 (not_le.mpr hb)
                · exact absurd hxb.2.2.2 (not_lt.mpr hb)
            · exact hmem
      · rename_i hdrop
        push_neg at hdrop
        have hxyb : inBoundsC w h (x, y) :=
          ⟨hdrop.2.1, hdrop.2.2.1, hdrop.2.2.2.1, hdrop.2.2.2.2⟩
        have hcount := unvisited_cons hxyb hdrop.1
        simp only [List.length_cons] at hfuel
        dsimp only
        split
        · rename_i hpass
          refine ih ((x, y) :: visited)
            (rest ++ [(x + 1, y), (x - 1, y), (x, y + 1), (x, y - 1)])
            (regions ++ [(x, y)]) ?_ ?_
          · simp only [List.length_append, List.length_cons, List.length_nil]
            omega
          · rcases hinv with hr | ⟨hv, hq⟩
            · exact Or.inl (List.mem_append.mpr (Or.inl hr))
            · by_cases hsxy : seed = (x, y)
              · exact Or.inl (List.mem_append.mpr (Or.inr (by simp [hsxy])))
              · have hmem : seed ∈ rest := by
                  rcases List.mem_cons.mp hq with heq | hmem
                  · exact absurd heq hsxy
                  · exact hmem
                refine Or.inr ⟨?_, List.mem_append.mpr (Or.inl hmem)⟩
                intro hc
                rcases List.mem_cons.mp hc with heq2 | hmem2
                · exact hsxy heq2
                · exact hv hmem2
        · rename_i hfail
          refine ih ((x, y) :: visited) rest regions ?_ ?_
          · omega
          · rcases hinv with hr | ⟨hv, hq⟩
            · exact Or.inl hr
            · by_cases hsxy : seed = (x, y)
              · exfalso
                subst hsxy
                exact hfail hdist
              · have hmem : seed ∈ rest := by
                  rcases List.mem_cons.mp hq with heq | hmem
                  · exact absurd heq hsxy
                  · exact hmem
                refine Or.inr ⟨?_, hmem⟩
                intro hc
                rcases List.mem_cons.mp hc with heq2 | hmem2
                · exact hsxy heq2
                · exact hv hmem2

end FloodLemmas

/-- C8: Region grower bounds: every coordinate returned by smartFloodFill
lies within the image bounds, for every image, seed and threshold;
out-of-bounds neighbors are rejected at the dequeue check, never wrapped
or included. -/
theorem c8_region_grower_bounds (data : ℕ → ℕ) (w h : ℕ) (seed : ℤ × ℤ) (t : ℚ) :
    ∀ p ∈ smartFloodFill data w h seed t, inBoundsC w h p := by
  unfold smartFloodFill
  exact floodLoop_sound _ _ _ _ _ _ _ _ _ _ _ (by intro p hp; exact absurd hp (List.not_mem_nil p))

/-- Witness for C8 at a concrete run: the pixel (0, 0) is returned by a
run on a 1 by 1 image and is indeed in bounds. -/
theorem c8_region_grower_bounds_witness : inBoundsC 1 1 (0, 0) :=
  c8_region_grower_bounds (fun _ => 0) 1 1 (0, 0) 1 (0, 0) (by decide)

/-- C10: Seed self-inclusion: for an in-bounds seed and a nonnegative
threshold, the region returned by smartFloodFill contains the seed pixel
itself, since the color distance of the seed to the target color read at
the seed index is zero. -/
theorem c10_seed_self_inclusion (data : ℕ → ℕ) (w h : ℕ) (seed : ℤ × ℤ) (t : ℚ)
    (hs : inBoundsC w h seed) (ht : 0 ≤ t) :
    seed ∈ smartFloodFill data w h seed t := by
  unfold smartFloodFill
  refine floodLoop_seed data w h _ _ _ t seed hs ?_ (5 * w * h + 1) [] [seed] [] ?_ ?_
  · have hz : colorDistSq
        (data ((seed.2 * (w : ℤ) + seed.1) * 4).toNat)
        (data (((seed.2 * (w : ℤ) + seed.1) * 4).toNat + 1))
        (data (((seed.2 * (w : ℤ) + seed.1) * 4).toNat + 2))
        (data ((seed.2 * (w : ℤ) + seed.1) * 4).toNat)
        (data (((seed.2 * (w : ℤ) + seed.1) * 4).toNat + 1))
        (data (((seed.2 * (w : ℤ) + seed.1) * 4).toNat + 2)) = 0 := by
      simp [colorDistSq]
    rw [hz]
    exact colorDistanceLE_zero ht
  · rw [unvisited_nil, Nat.mul_assoc]
    simp
  · exact Or.inr ⟨List.not_mem_nil seed, List.mem_singleton.mpr rfl⟩

/-- Witness for C10 at a concrete run on a 2 by 2 image. -/
theorem c10_seed_self_inclusion_witness :
    ((1 : ℤ), (1 : ℤ)) ∈ smartFloodFill (fun _ => 9) 2 2 (1, 1) 0 :=
  c10_seed_self_inclusion (fun _ => 9) 2 2 (1, 1) 0 (by decide) (by decide)

/-- C7 counterexample: the claim says an out-of-bounds seed results in an
InvalidInput error surfaced immediately; the code instead returns
normally with the empty region set, as this concrete run shows. -/
theorem c7_oob_seed_counterexample :
    smartFloodFill (fun _ => 0) 2 2 (5, 5) (1 / 2) = [] := by decide

/-- C7 amended: smartFloodFill has no failure mode at all: with an
out-of-bounds seed it silently returns the empty region set (the seed is
dequeued and rejected by the bounds check on the first iteration). -/
theorem c7_oob_seed_amended (data : ℕ → ℕ) (w h : ℕ) (seed : ℤ × ℤ) (t : ℚ)
    (hs : ¬ inBoundsC w h seed) :
    smartFloodFill data w h seed t = [] := by
  obtain ⟨x, y⟩ := seed
  unfold smartFloodFill
  rw [floodLoop]
  rw [if_pos]
  · exact floodLoop_nil_queue _ _ _ _ _ _ _ _ _ _
  · have hb : x < 0 ∨ (w : ℤ) ≤ x ∨ y < 0 ∨ (h : ℤ) ≤ y := by
      simp only [inBoundsC, not_and_or, not_le, not_lt] at hs
      omega
    exact Or.inr hb

/-- Witness for C7 amended at a concrete out-of-bounds seed. -/
theorem c7_oob_seed_witness : smartFloodFill (fun _ => 7) 3 3 (-1, 0) 1 = [] :=
  c7_oob_seed_amended (fun _ => 7) 3 3 (-1, 0) 1 (by decide)

/-- A set closed under in-bounds neighbor steps contains everything
reachable from any of its members. -/
lemma reach_closed {w h : ℕ} {V : List (ℤ × ℤ)}
    (hcl : ∀ a ∈ V, ∀ q, NbrIn w h a q → q ∈ V) {s p : ℤ × ℤ}
    (hs : s ∈ V) (hr : ReachIn w h s p) : p ∈ V := by
  induction hr with
  | refl => exact hs
  | tail _ hbc ih => exact hcl _ ih _ hbc

/-- Grid connectivity: any in-bounds coordinate is reachable from any
in-bounds seed through in-bounds 4-connected steps, moving one coordinate
at a time toward the target. -/
lemma grid_reach {w h : ℕ} : ∀ {seed p : ℤ × ℤ}, inBoundsC w h seed →
    inBoundsC w h p → ReachIn w h seed p := by
  intro ⟨sx, sy⟩ ⟨px, py⟩ hseed hp
  simp only [inBoundsC] at hseed hp
  generalize hd : (px - sx).natAbs + (py - sy).natAbs = d
  induction d generalizing px py with
  | zero =>
    have : px = sx ∧ py = sy := by omega
    obtain ⟨rfl, rfl⟩ := this
    exact Relation.ReflTransGen.refl
  | succ n ih =>
    rcases lt_trichotomy px sx with hx | hx | hx
    · have hstep : ReachIn w h (sx, sy) (px + 1, py) := by
        refine ih (px + 1) py ?_ ?_
        · exact ⟨by omega, by omega, hp.2.2.1, hp.2.2.2⟩
        · omega
      refine Relation.ReflTransGen.tail hstep ?_
      refine ⟨⟨hp.1, hp.2.1, hp.2.2.1, hp.2.2.2⟩, ?_⟩
      simp only [nbrList, List.mem_cons, List.mem_singleton, Prod.mk.injEq,
        List.not_mem_nil, or_false, true_and, and_true]
      omega
    · subst hx
      rcases lt_trichotomy py sy with hy | hy | hy
      · have hstep : ReachIn w h (px, sy) (px, py + 1) := by
          refine ih px (py + 1) ?_ ?_
          · exact ⟨hp.1, hp.2.1, by omega, by omega⟩
          · omega
        refine Relation.ReflTransGen.tail hstep ?_
        refine ⟨⟨hp.1, hp.2.1, hp.2.2.1, hp.2.2.2⟩, ?_⟩
        simp only [nbrList, List.mem_cons, List.mem_singleton, Prod.mk.injEq,
          List.not_mem_nil, or_false, true_and, and_true]
        omega
      · subst hy
        exact Relation.ReflTransGen.refl
      · have hstep : ReachIn w h (px, sy) (px, py - 1) := by
          refine ih px (py - 1) ?_ ?_
          · exact ⟨hp.1, hp.2.1, by omega, by omega⟩
          · omega
        refine Relation.ReflTransGen.tail hstep ?_
        refine ⟨⟨hp.1, hp.2.1, hp.2.2.1, hp.2.2.2⟩, ?_⟩
        simp only [nbrList, List.mem_cons, List.mem_singleton, Prod.mk.injEq,
          List.not_mem_nil, or_false, true_and, and_true]
        omega
    · have hstep : ReachIn w h (sx, sy) (px - 1, py) := by
        refine ih (px - 1) py ?_ ?_
        · exact ⟨by omega, by omega, hp.2.2.1, hp.2.2.2⟩
        · omega
      refine Relation.ReflTransGen.tail hstep ?_
      refine ⟨⟨hp.1, hp.2.1, hp.2.2.1, hp.2.2.2⟩, ?_⟩
      simp only [nbrList, List.mem_cons, List.mem_singleton, Prod.mk.injEq,
        List.not_mem_nil, or_false, true_and, and_true]
      omega

/-- Reformulation of uniformity at integer coordinates and flat byte
indices, as the flood loop reads them. -/
lemma uniform_bytes {data : ℕ → ℕ} {w h : ℕ} {c : ℕ × ℕ × ℕ}
    (hu : UniformImage data w h c) :
    ∀ x y : ℤ, 0 ≤ x → x < (w : ℤ) → 0 ≤ y → y < (h : ℤ) →
      data (((y * (w : ℤ) + x) * 4).toNat) = c.1 ∧
      data ((((y * (w : ℤ) + x) * 4).toNat) + 1) = c.2.1 ∧
      data ((((y * (w : ℤ) + x) * 4).toNat) + 2) = c.2.2 := by
  intro x y hx0 hxw hy0 hyh
  obtain ⟨a, rfl⟩ := Int.eq_ofNat_of_zero_le hx0
  obtain ⟨b, rfl⟩ := Int.eq_ofNat_of_zero_le hy0
  have ha : a < w := by exact_mod_cast hxw
  have hb : b < h := by exact_mod_cast hyh
  have hidx : (((b : ℤ) * (w : ℤ) + (a : ℤ)) * 4).toNat = (b * w + a) * 4 := by
    rw [show ((b : ℤ) * (w : ℤ) + (a : ℤ)) * 4 = (((b * w + a) * 4 : ℕ) : ℤ) by push_cast; ring,
      Int.toNat_natCast]
  rw [hidx]
  exact hu a ha b hb

/-- Completeness of the flood loop on a uniform image: every in-bounds
coordinate reachable from an in-bounds member of the visited set or the
queue ends up in the result, provided the fuel dominates the loop
measure.  The measure (five per unvisited in-bounds pixel plus the queue
length) drops by at least one per iteration, exactly as the fuel does. -/
lemma floodLoop_complete (data : ℕ → ℕ) (w h : ℕ) (tR tG tB : ℕ) (t : ℚ)
    (hU : ∀ x y : ℤ, 0 ≤ x → x < (w : ℤ) → 0 ≤ y → y < (h : ℤ) →
      data (((y * (w : ℤ) + x) * 4).toNat) = tR ∧
      data ((((y * (w : ℤ) + x) * 4).toNat) + 1) = tG ∧
      data ((((y * (w : ℤ) + x) * 4).toNat) + 2) = tB)
    (ht : 0 ≤ t) :
    ∀ (fuel : ℕ) (visited queue regions : List (ℤ × ℤ)),
    5 * unvisited w h visited + queue.length ≤ fuel →
    (∀ a ∈ visited, a ∈ regions) →
    (∀ a ∈ visited, ∀ q, NbrIn w h a q → q ∈ visited ∨ q ∈ queue) →
    ∀ p, inBoundsC w h p →
    (∃ s0, (s0 ∈ visited ∨ s0 ∈ queue) ∧ inBoundsC w h s0 ∧ ReachIn w h s0 p) →
    p ∈ floodLoop data w h tR tG tB t fuel visited queue regions := by
  intro fuel
  induction fuel with
  | zero =>
    intro visited queue regions hfuel hvr hcl p hp hsrc
    have hu0 : unvisited w h visited = 0 := by omega
    have hpv : p ∈ visited := by
      by_contra hpv
      have hmem : p ∈ (inBFinset w h).filter (fun q => q ∉ visited) := by
        simp [Finset.mem_filter, mem_inBFinset, hp, hpv]
      have := Finset.card_pos.mpr ⟨p, hmem⟩
      unfold unvisited at hu0
      omega
    exact hvr p hpv
  | succ n ih =>
    intro visited queue regions hfuel hvr hcl p hp hsrc
    match queue with
    | [] =>
      rw [floodLoop_nil_queue]
      have hclosed : ∀ a ∈ visited, ∀ q, NbrIn w h a q → q ∈ visited := by
        intro a ha q hq
        rcases hcl a ha q hq with hq2 | hq2
        · exact hq2
        · exact absurd hq2 (List.not_mem_nil q)
      obtain ⟨s0, hs0, _, hreach⟩ := hsrc
      have hs0v : s0 ∈ visited := by
        rcases hs0 with hs0 | hs0
        · exact hs0
        · exact absurd hs0 (List.not_mem_nil s0)
      exact hvr p (reach_closed hclosed hs0v hreach)
    | (x, y) :: rest =>
      rw [floodLoop]
      split
      · rename_i hdrop
        have hdropv : ∀ q : ℤ × ℤ, q = (x, y) → inBoundsC w h q → q ∈ visited := by
          intro q heq hqb
          subst heq
          rcases hdrop with hvis | hb
          · exact hvis
          · exfalso
            rcases hb with hb | hb | hb | hb
            · exact absurd hqb.1 (not_le.mpr hb)
            · exact absurd hqb.2.1 (not_lt.mpr hb)
            · exact absurd hqb.2.2.1 (not_le.mpr hb)
            · exact absurd hqb.2.2.2 (not_lt.mpr hb)
        refine ih visited rest regions ?_ hvr ?_ p hp ?_
        · simp only [List.length_cons] at hfuel
          omega
        · intro a ha q hq
          rcases hcl a ha q hq with hq2 | hq2
          · exact Or.inl hq2
          · rcases List.mem_cons.mp hq2 with heq | hmem
            · exact Or.inl (hdropv q heq hq.1)
            · exact Or.inr hmem
        · obtain ⟨s0, hs0, hs0b, hreach⟩ := hsrc
          refine ⟨s0, ?_, hs0b, hreach⟩
          rcases hs0 with hs0 | hs0
          · exact Or.inl hs0
          · rcases List.mem_cons.mp hs0 with heq | hmem
            · exact Or.inl (hdropv s0 heq hs0b)
            · exact Or.inr hmem
      · rename_i hdrop
        push_neg at hdrop
        have hxyb : inBoundsC w h (x, y) :=
          ⟨hdrop.2.1, hdrop.2.2.1, hdrop.2.2.2.1, hdrop.2.2.2.2⟩
        have hcount := unvisited_cons hxyb hdrop.1
        simp only [List.length_cons] at hfuel
        dsimp only
        rw [if_pos]
        · refine ih ((x, y) :: visited)
            (rest ++ [(x + 1, y), (x - 1, y), (x, y + 1), (x, y - 1)])
            (regions ++ [(x, y)]) ?_ ?_ ?_ p hp ?_
          · simp only [List.length_append, List.length_cons, List.length_nil]
            omega
          · intro a ha
            rcases List.mem_cons.mp ha with heq | hmem
            · exact List.mem_append.mpr (Or.inr (by simp [heq]))
            · exact List.mem_append.mpr (Or.inl (hvr a hmem))
          · intro a ha q hq
            rcases List.mem_cons.mp ha with heq | hmem
            · subst heq
              refine Or.inr (List.mem_append.mpr (Or.inr ?_))
              simpa [nbrList] using hq.2
            · rcases hcl a hmem q hq with hq2 | hq2
              · exact Or.inl (List.mem_cons.mpr (Or.inr hq2))
              · rcases List.mem_cons.mp hq2 with heq2 | hmem2
                · exact Or.inl (List.mem_cons.mpr (Or.inl heq2))
                · exact Or.inr (List.mem_append.mpr (Or.inl hmem2))
          · obtain ⟨s0, hs0, hs0b, hreach⟩ := hsrc
            refine ⟨s0, ?_, hs0b, hreach⟩
            rcases hs0 with hs0 | hs0
            · exact Or.inl (List.mem_cons.mpr (Or.inr hs0))
            · rcases List.mem_cons.mp hs0 with heq | hmem
              · exact Or.inl (List.mem_cons.mpr (Or.inl heq))
              · exact Or.inr (List.mem_append.mpr (Or.inl hmem))
        · obtain ⟨hr, hg, hb2⟩ :=
            hU x y hdrop.2.1 hdrop.2.2.1 hdrop.2.2.2.1 hdrop.2.2.2.2
          rw [hr, hg, hb2]
          have hz : colorDistSq tR tG tB tR tG tB = 0 := by simp [colorDistSq]
          rw [hz]
          exact colorDistanceLE_zero ht

/-- On a single-color image, a run of smartFloodFill from any in-bounds
seed with any nonnegative threshold returns exactly the set of all
in-bounds pixel coordinates. -/
lemma smartFloodFill_uniform_covers (data : ℕ → ℕ) (w h : ℕ) (c : ℕ × ℕ × ℕ)
    (seed : ℤ × ℤ) (t : ℚ)
    (hu : UniformImage data w h c) (hs : inBoundsC w h seed) (ht : 0 ≤ t) :
    ∀ p, p ∈ smartFloodFill data w h seed t ↔ inBoundsC w h p := by
  intro p
  constructor
  · intro hp
    unfold smartFloodFill at hp
    exact floodLoop_sound data w h _ _ _ t _ _ _ _
      (by intro q hq; exact absurd hq (List.not_mem_nil q)) p hp
  · intro hp
    unfold smartFloodFill
    dsimp only
    obtain ⟨hr, hg, hb⟩ := uniform_bytes hu seed.1 seed.2 hs.1 hs.2.1 hs.2.2.1 hs.2.2.2
    rw [hr, hg, hb]
    refine floodLoop_complete data w h c.1 c.2.1 c.2.2 t ?_ ht (5 * w * h + 1)
      [] [seed] [] ?_ ?_ ?_ p hp ?_
    · intro x y hx0 hxw hy0 hyh
      exact uniform_bytes hu x y hx0 hxw hy0 hyh
    · rw [unvisited_nil, Nat.mul_assoc]
      simp
    · intro a ha
      exact absurd ha (List.not_mem_nil a)
    · intro a ha
      exact absurd ha (List.not_mem_nil a)
    · exact ⟨seed, Or.inr (List.mem_singleton.mpr rfl), hs, grid_reach hs hp⟩

/-- C6: Full-uniform-image coverage: on a single-color image, a run of
smartFloodFill from any in-bounds seed with any nonnegative threshold
returns exactly the set of all width times height pixel coordinates. -/
theorem c6_uniform_full_coverage (data : ℕ → ℕ) (w h : ℕ) (c : ℕ × ℕ × ℕ)
    (seed : ℤ × ℤ) (t : ℚ)
    (hu : UniformImage data w h c) (hs : inBoundsC w h seed) (ht : 0 ≤ t) :
    ∀ p, p ∈ smartFloodFill data w h seed t ↔ inBoundsC w h p :=
  smartFloodFill_uniform_covers data w h c seed t hu hs ht

/-- Witness for C6 at a concrete run: a uniform 2 by 2 image is fully
covered from seed (0, 0). -/
theorem c6_uniform_full_coverage_witness :
    ((1 : ℤ), (1 : ℤ)) ∈ smartFloodFill (fun _ => 100) 2 2 (0, 0) 1 :=
  (c6_uniform_full_coverage (fun _ => 100) 2 2 (100, 100, 100) (0, 0) 1
    (by decide) (by decide) (by decide) (1, 1)).mpr (by decide)

lemma writeByte_width (b : ImageData) (i : ℤ) (v : ℕ) : (writeByte b i v).width = b.width := by
  unfold writeByte
  split <;> rfl

lemma writeByte_height (b : ImageData) (i : ℤ) (v : ℕ) : (writeByte b i v).height = b.height := by
  unfold writeByte
  split <;> rfl

lemma writeByte_data_in (b : ImageData) (i0 : ℤ) (v : ℕ)
    (hin : 0 ≤ i0 ∧ i0 < 4 * b.width * b.height) (j : ℕ) :
    (writeByte b i0 v).data j = if (j : ℤ) = i0 then v else b.data j := by
  unfold writeByte
  rw [if_pos hin]

lemma writeRGBA_width (b : ImageData) (pn : ℤ) (v0 v1 v2 v3 : ℕ) :
    (writeRGBA b pn v0 v1 v2 v3).width = b.width := by
  unfold writeRGBA
  simp [writeByte_width]

lemma writeRGBA_height (b : ImageData) (pn : ℤ) (v0 v1 v2 v3 : ℕ) :
    (writeRGBA b pn v0 v1 v2 v3).height = b.height := by
  unfold writeRGBA
  simp [writeByte_height]

lemma idx_in_range {w h : ℕ} {pn c : ℤ}
    (hpn : 0 ≤ pn ∧ pn < (w : ℤ) * h) (hc : 0 ≤ c ∧ c < 4) :
    0 ≤ pn * 4 + c ∧ pn * 4 + c < 4 * w * h := by
  constructor
  · linarith [hpn.1, hc.1]
  · linarith [hpn.2, hc.2]

lemma writeByte_data (b : ImageData) (i0 : ℤ) (v : ℕ) (j : ℕ) :
    (writeByte b i0 v).data j =
      if (0 ≤ i0 ∧ i0 < 4 * b.width * b.height) ∧ (j : ℤ) = i0 then v else b.data j := by
  unfold writeByte
  by_cases hin : 0 ≤ i0 ∧ i0 < 4 * b.width * b.height
  · rw [if_pos hin]
    by_cases hj : (j : ℤ) = i0
    · simp [hj, hin]
    · simp [hj, hin]
  · rw [if_neg hin, if_neg (by tauto)]

lemma writeRGBA_data (b : ImageData) (pn : ℤ) (v0 v1 v2 v3 : ℕ)
    (hpn : 0 ≤ pn ∧ pn < (b.width : ℤ) * b.height) (j : ℕ) :
    (writeRGBA b pn v0 v1 v2 v3).data j =
      if ((j / 4 : ℕ) : ℤ) = pn then chanVal v0 v1 v2 v3 (j % 4) else b.data j := by
  unfold writeRGBA
  simp only [writeByte_data, writeByte_width, writeByte_height]
  have hr0 : 0 ≤ pn * 4 ∧ pn * 4 < 4 * b.width * b.height := by
    have hc0 : (0 : ℤ) ≤ (0 : ℤ) ∧ (0 : ℤ) < 4 := by omega
    have := idx_in_range hpn hc0
    simpa using this
  have hr1 : 0 ≤ pn * 4 + 1 ∧ pn * 4 + 1 < 4 * b.width * b.height :=
    idx_in_range hpn (by omega)
  have hr2 : 0 ≤ pn * 4 + 2 ∧ pn * 4 + 2 < 4 * b.width * b.height :=
    idx_in_range hpn (by omega)
  have hr3 : 0 ≤ pn * 4 + 3 ∧ pn * 4 + 3 < 4 * b.width * b.height :=
    idx_in_range hpn (by omega)
  simp only [hr0, hr1, hr2, hr3, true_and]
  by_cases hq : ((j / 4 : ℕ) : ℤ) = pn
  · rw [if_pos hq]
    have hc : j % 4 = 0 ∨ j % 4 = 1 ∨ j % 4 = 2 ∨ j % 4 = 3 := by omega
    rcases hc with hc | hc | hc | hc
    · rw [if_neg (by omega), if_neg (by omega), if_neg (by omega), if_pos (by omega), hc]
      simp [chanVal]
    · rw [if_neg (by omega), if_neg (by omega), if_pos (by omega), hc]
      simp [chanVal]
    · rw [if_neg (by omega), if_pos (by omega), hc]
      simp [chanVal]
    · rw [if_pos (by omega), hc]
      simp [chanVal]
  · rw [if_neg hq]
    rw [if_neg (by omega), if_neg (by omega), if_neg (by omega), if_neg (by omega)]

lemma pixNum_range {w h : ℕ} {p : ℤ × ℤ} (hp : inBoundsC w h p) :
    0 ≤ pixNum w p ∧ pixNum w p < (w : ℤ) * h := by
  obtain ⟨hx0, hxw, hy0, hyh⟩ := hp
  unfold pixNum
  constructor
  · have := mul_nonneg hy0 (by positivity : (0 : ℤ) ≤ (w : ℤ))
    linarith
  · have h1 : p.2 * (w : ℤ) ≤ ((h : ℤ) - 1) * w :=
      mul_le_mul_of_nonneg_right (by omega) (by positivity)
    have h2 : ((h : ℤ) - 1) * w + w = (w : ℤ) * h := by ring
    linarith

lemma pixNum_inj {w h : ℕ} {p q : ℤ × ℤ} (hp : inBoundsC w h p) (hq : inBoundsC w h q)
    (heq : pixNum w p = pixNum w q) : p = q := by
  obtain ⟨hpx0, hpxw, hpy0, hpyh⟩ := hp
  obtain ⟨hqx0, hqxw, hqy0, hqyh⟩ := hq
  unfold pixNum at heq
  have hy : p.2 = q.2 := by
    rcases lt_trichotomy p.2 q.2 with hlt | heq2 | hlt
    · exfalso
      have h1 : (p.2 + 1) * (w : ℤ) ≤ q.2 * w :=
        mul_le_mul_of_nonneg_right (by omega) (by positivity)
      have h2 : (p.2 + 1) * (w : ℤ) = p.2 * w + w := by ring
      linarith
    · exact heq2
    · exfalso
      have h1 : (q.2 + 1) * (w : ℤ) ≤ p.2 * w :=
        mul_le_mul_of_nonneg_right (by omega) (by positivity)
      have h2 : (q.2 + 1) * (w : ℤ) = q.2 * w + w := by ring
      linarith
  have hx : p.1 = q.1 := by
    rw [hy] at heq
    linarith
  exact Prod.ext hx hy

/-- Byte-level characterisation of a conditional writeRGBA pass over a
list of in-bounds pixels: a byte holds the channel value when some listed
pixel satisfying the condition owns it, and is untouched otherwise. -/
lemma foldl_writes_data (w h : ℕ) (cond : ℤ × ℤ → Prop) [DecidablePred cond]
    (v0 v1 v2 v3 : ℕ) :
    ∀ (l : List (ℤ × ℤ)) (B : ImageData), B.width = w → B.height = h →
    (∀ p ∈ l, inBoundsC w h p) →
    ∀ j : ℕ,
    (l.foldl (fun acc p => if cond p then writeRGBA acc (pixNum w p) v0 v1 v2 v3 else acc)
      B).data j
      = if ∃ p ∈ l, cond p ∧ ((j / 4 : ℕ) : ℤ) = pixNum w p
        then chanVal v0 v1 v2 v3 (j % 4) else B.data j := by
  intro l
  induction l with
  | nil =>
    intro B hw hh hl j
    simp
  | cons a l ih =>
    intro B hw hh hl j
    simp only [List.foldl_cons]
    have hab : inBoundsC w h a := hl a (List.mem_cons_self a l)
    by_cases hca : cond a
    · rw [if_pos hca]
      rw [ih (writeRGBA B (pixNum w a) v0 v1 v2 v3)
        (by rw [writeRGBA_width]; exact hw) (by rw [writeRGBA_height]; exact hh)
        (fun p hp => hl p (List.mem_cons_of_mem a hp)) j]
      have hrange : 0 ≤ pixNum w a ∧ pixNum w a < (B.width : ℤ) * B.height := by
        rw [hw, hh]
        exact pixNum_range hab
      by_cases hex : ∃ p ∈ l, cond p ∧ ((j / 4 : ℕ) : ℤ) = pixNum w p
      · rw [if_pos hex]
        obtain ⟨p, hp, hcp, hjp⟩ := hex
        rw [if_pos ⟨p, List.mem_cons_of_mem a hp, hcp, hjp⟩]
      · rw [if_neg hex, writeRGBA_data B _ _ _ _ _ hrange j]
        by_cases hja : ((j / 4 : ℕ) : ℤ) = pixNum w a
        · rw [if_pos hja, if_pos ⟨a, List.mem_cons_self a l, hca, hja⟩]
        · rw [if_neg hja, if_neg ?h]
          case h =>
            rintro ⟨p, hp, hcp, hjp⟩
            rcases List.mem_cons.mp hp with heq | hmem
            · exact hja (heq ▸ hjp)
            · exact hex ⟨p, hmem, hcp, hjp⟩
    · rw [if_neg hca]
      rw [ih B hw hh (fun p hp => hl p (List.mem_cons_of_mem a hp)) j]
      have hiff : (∃ p ∈ a :: l, cond p ∧ ((j / 4 : ℕ) : ℤ) = pixNum w p)
          ↔ (∃ p ∈ l, cond p ∧ ((j / 4 : ℕ) : ℤ) = pixNum w p) := by
        constructor
        · rintro ⟨p, hp, hcp, hjp⟩
          rcases List.mem_cons.mp hp with heq | hmem
          · exact absurd hcp (heq ▸ hca)
          · exact ⟨p, hmem, hcp, hjp⟩
        · rintro ⟨p, hp, hcp, hjp⟩
          exact ⟨p, List.mem_cons_of_mem a hp, hcp, hjp⟩
      exact if_congr hiff.symm rfl rfl

/-- Dimension preservation of the conditional write pass. -/
lemma foldl_writes_dims (w : ℕ) (cond : ℤ × ℤ → Prop) [DecidablePred cond]
    (v0 v1 v2 v3 : ℕ) :
    ∀ (l : List (ℤ × ℤ)) (B : ImageData),
    (l.foldl (fun acc p => if cond p then writeRGBA acc (pixNum w p) v0 v1 v2 v3 else acc)
      B).width = B.width ∧
    (l.foldl (fun acc p => if cond p then writeRGBA acc (pixNum w p) v0 v1 v2 v3 else acc)
      B).height = B.height := by
  intro l
  induction l with
  | nil => intro B; exact ⟨rfl, rfl⟩
  | cons a l ih =>
    intro B
    simp only [List.foldl_cons]
    by_cases hca : cond a
    · rw [if_pos hca]
      obtain ⟨h1, h2⟩ := ih (writeRGBA B (pixNum w a) v0 v1 v2 v3)
      rw [h1, h2, writeRGBA_width, writeRGBA_height]
      exact ⟨rfl, rfl⟩
    · rw [if_neg hca]
      exact ih B

lemma mem_setUnion (k : ℤ × ℤ) :
    ∀ (l acc : List (ℤ × ℤ)), k ∈ setUnion acc l ↔ k ∈ acc ∨ k ∈ l := by
  intro l
  induction l with
  | nil =>
    intro acc
    simp [setUnion]
  | cons a l ih =>
    intro acc
    show k ∈ setUnion (if a ∈ acc then acc else acc ++ [a]) l ↔ _
    rw [ih]
    by_cases ha : a ∈ acc
    · rw [if_pos ha]
      constructor
      · rintro (hk | hk)
        · exact Or.inl hk
        · exact Or.inr (List.mem_cons_of_mem a hk)
      · rintro (hk | hk)
        · exact Or.inl hk
        · rcases List.mem_cons.mp hk with heq | hmem
          · exact Or.inl (heq ▸ ha)
          · exact Or.inr hmem
    · rw [if_neg ha]
      constructor
      · rintro (hk | hk)
        · rcases List.mem_append.mp hk with hm | hm
          · exact Or.inl hm
          · exact Or.inr (List.mem_cons.mpr (Or.inl (List.mem_singleton.mp hm)))
        · exact Or.inr (List.mem_cons_of_mem a hk)
      · rintro (hk | hk)
        · exact Or.inl (List.mem_append.mpr (Or.inl hk))
        · rcases List.mem_cons.mp hk with heq | hmem
          · exact Or.inl (List.mem_append.mpr (Or.inr (by simp [heq])))
          · exact Or.inr hmem

lemma mem_setDiff (k : ℤ × ℤ) :
    ∀ (l acc : List (ℤ × ℤ)), k ∈ setDiff acc l ↔ k ∈ acc ∧ k ∉ l := by
  intro l
  induction l with
  | nil =>
    intro acc
    simp [setDiff]
  | cons a l ih =>
    intro acc
    show k ∈ setDiff (acc.filter (fun q => decide (q ≠ a))) l ↔ _
    rw [ih]
    simp only [List.mem_filter, decide_eq_true_iff, List.mem_cons]
    constructor
    · rintro ⟨⟨hk, hne⟩, hnl⟩
      exact ⟨hk, by rintro (h | h) <;> [exact hne h; exact hnl h]⟩
    · rintro ⟨hk, hn⟩
      exact ⟨⟨hk, fun h => hn (Or.inl h)⟩, fun h => hn (Or.inr h)⟩

lemma mem_intRange {a z : ℤ} {n : ℕ} : z ∈ intRange a n ↔ a ≤ z ∧ z < a + n := by
  unfold intRange
  simp only [List.mem_map, List.mem_range]
  constructor
  · rintro ⟨k, hk, rfl⟩
    omega
  · rintro ⟨h1, h2⟩
    refine ⟨(z - a).toNat, by omega, by omega⟩

lemma mem_interiorCoords {w h : ℕ} {p : ℤ × ℤ} :
    p ∈ interiorCoords w h ↔ interiorC w h p := by
  unfold interiorCoords interiorC
  simp only [List.mem_flatMap, List.mem_map, mem_intRange]
  constructor
  · rintro ⟨y, ⟨hy1, hy2⟩, x, ⟨hx1, hx2⟩, rfl⟩
    refine ⟨hx1, ?_, hy1, ?_⟩ <;> omega
  · rintro ⟨hx1, hx2, hy1, hy2⟩
    exact ⟨p.2, ⟨hy1, by omega⟩, p.1, ⟨hx1, by omega⟩, rfl⟩

lemma interiorC_inBounds {w h : ℕ} {p : ℤ × ℤ} (hp : interiorC w h p) :
    inBoundsC w h p := by
  obtain ⟨h1, h2, h3, h4⟩ := hp
  exact ⟨by omega, by omega, by omega, by omega⟩

lemma mem_posFold (data : ℕ → ℕ) (w h : ℕ) (t : ℚ) (k : ℤ × ℤ) :
    ∀ (P : List (ℤ × ℤ)) (acc : List (ℤ × ℤ)),
    (k ∈ P.foldl (fun acc pnt => setUnion acc (smartFloodFill data w h pnt (t * 0.8))) acc ↔
      k ∈ acc ∨ ∃ pnt ∈ P, k ∈ smartFloodFill data w h pnt (t * 0.8)) := by
  intro P
  induction P with
  | nil =>
    intro acc
    simp
  | cons a P ih =>
    intro acc
    rw [List.foldl_cons, ih, mem_setUnion, List.exists_mem_cons_iff]
    tauto

lemma mem_negFold (data : ℕ → ℕ) (w h : ℕ) (t : ℚ) (k : ℤ × ℤ) :
    ∀ (N : List (ℤ × ℤ)) (acc : List (ℤ × ℤ)),
    (k ∈ N.foldl (fun acc pnt => setDiff acc (smartFloodFill data w h pnt (t * 0.6))) acc ↔
      k ∈ acc ∧ ¬ ∃ pnt ∈ N, k ∈ smartFloodFill data w h pnt (t * 0.6)) := by
  intro N
  induction N with
  | nil =>
    intro acc
    simp
  | cons a N ih =>
    intro acc
    rw [List.foldl_cons, ih, mem_setDiff, List.exists_mem_cons_iff]
    constructor
    · rintro ⟨⟨hacc, hna⟩, hnN⟩
      exact ⟨hacc, fun hc => hc.elim hna hnN⟩
    · rintro ⟨hacc, hn⟩
      exact ⟨⟨hacc, fun hc => hn (Or.inl hc)⟩, fun hc => hn (Or.inr hc)⟩

/-- Membership characterisation of the builder region set. -/
lemma buildRegions_mem (data : ℕ → ℕ) (w h : ℕ) (t : ℚ)
    (positives negatives : List (ℤ × ℤ)) (k : ℤ × ℤ) :
    k ∈ buildRegions data w h t positives negatives ↔
      ((∃ pnt ∈ positives, k ∈ smartFloodFill data w h pnt (t * 0.8)) ∧
        ¬ ∃ pnt ∈ negatives, k ∈ smartFloodFill data w h pnt (t * 0.6)) := by
  unfold buildRegions
  rw [mem_negFold, mem_posFold]
  simp

/-- C5: Builder threshold scaling and application order: the final region
set of the builder is exactly the union over positive points of the
grower at threshold times 0.8, minus the union over negative points of
the grower at threshold times 0.6 — negatives are applied only after all
positives are unioned, with no re-addition pass. -/
theorem c5_builder_threshold_order (data : ℕ → ℕ) (w h : ℕ) (t : ℚ)
    (positives negatives : List (ℤ × ℤ)) (k : ℤ × ℤ) :
    k ∈ buildRegions data w h t positives negatives ↔
      ((∃ pnt ∈ positives, k ∈ smartFloodFill data w h pnt (t * 0.8)) ∧
        ¬ ∃ pnt ∈ negatives, k ∈ smartFloodFill data w h pnt (t * 0.6)) :=
  buildRegions_mem data w h t positives negatives k

/-- Region soundness of the grower, as a standalone lemma. -/
lemma smartFloodFill_inBounds (data : ℕ → ℕ) (w h : ℕ) (seed : ℤ × ℤ) (t : ℚ) :
    ∀ p ∈ smartFloodFill data w h seed t, inBoundsC w h p := by
  unfold smartFloodFill
  exact floodLoop_sound data w h _ _ _ t _ _ _ _
    (by intro p hp; exact absurd hp (List.not_mem_nil p))

/-- The builder region set only contains in-bounds coordinates. -/
lemma buildRegions_inBounds (data : ℕ → ℕ) (w h : ℕ) (t : ℚ)
    (positives negatives : List (ℤ × ℤ)) :
    ∀ k ∈ buildRegions data w h t positives negatives, inBoundsC w h k := by
  intro k hk
  rw [buildRegions_mem] at hk
  obtain ⟨⟨pnt, _, hmem⟩, _⟩ := hk
  exact smartFloodFill_inBounds data w h pnt _ k hmem

/-- With an empty positive list the builder region set is empty. -/
lemma buildRegions_nil_pos (data : ℕ → ℕ) (w h : ℕ) (t : ℚ)
    (negatives : List (ℤ × ℤ)) :
    buildRegions data w h t [] negatives = [] := by
  have hmem := buildRegions_mem data w h t [] negatives
  cases heq : buildRegions data w h t [] negatives with
  | nil => rfl
  | cons a l =>
    exfalso
    have := (hmem a).mp (heq ▸ List.mem_cons_self a l)
    simp at this

lemma foldl_fixed {α β : Type} {f : α → β → α} {l : List β} {a : α}
    (hf : ∀ b x, x ∈ l → f b x = b) : l.foldl f a = a := by
  induction l generalizing a with
  | nil => rfl
  | cons x l ih =>
    rw [List.foldl_cons, hf a x (List.mem_cons_self x l)]
    exact ih fun b y hy => hf b y (List.mem_cons_of_mem x hy)

lemma readByte_blank (w h : ℕ) (i : ℤ) : readByte (blankImage w h) i = 0 := by
  unfold readByte blankImage
  split <;> rfl

lemma not_hasSelectedNbr_blank (w h : ℕ) (x y : ℤ) :
    ¬ hasSelectedNbr (blankImage w h) x y := by
  rintro ⟨dy, _, dx, _, hlt⟩
  rw [readByte_blank] at hlt
  omega

lemma dilateStep_blank (w h : ℕ) : dilateStep (blankImage w h) = blankImage w h := by
  unfold dilateStep
  exact foldl_fixed fun b p _ => if_neg (not_hasSelectedNbr_blank w h p.1 p.2)

lemma dilateMask_zero (m : ImageData) : dilateMask m 0 = m := rfl

lemma dilateMask_succ (m : ImageData) (n : ℕ) :
    dilateMask m (n + 1) = dilateStep (dilateMask m n) := by
  unfold dilateMask
  rw [List.range_succ, List.foldl_append]
  rfl

lemma dilateMask_blank (w h : ℕ) : ∀ d : ℕ, dilateMask (blankImage w h) d = blankImage w h := by
  intro d
  induction d with
  | zero => rfl
  | succ n ih => rw [dilateMask_succ, ih, dilateStep_blank]

/-- With an explicitly empty positive list, advancedSmartSegmentation
returns the all-zero mask of the image dimensions, whatever the image,
click point, threshold, dilation count and negative points are. -/
lemma advSeg_empty_pos (img : ImageData) (click : ℤ × ℤ)
    (ie : Option Bool) (th : Option ℚ) (di : Option ℕ) (ng : Option (List (ℤ × ℤ))) :
    advancedSmartSegmentation img click ⟨ie, th, di, some [], ng⟩
      = blankImage img.width img.height := by
  unfold advancedSmartSegmentation
  dsimp only [Option.getD_some]
  rw [buildRegions_nil_pos]
  have hmask : rasterizeRegions img.width img.height [] = blankImage img.width img.height := rfl
  rw [hmask]
  split
  · exact dilateMask_blank img.width img.height _
  · rfl

/-- C2 counterexample: the claim says the builder fails with an
InvalidInput error on an empty positive list and never returns an empty
mask; on this concrete input the code instead returns normally with the
all-zero (empty) mask, because the JS or-expression keeps an explicitly
passed empty positives array. -/
theorem c2_empty_positives_counterexample :
    advancedSmartSegmentation ⟨2, 2, fun _ => 200⟩ (0, 0)
      ⟨none, none, none, some [], some [(1, 1)]⟩ = blankImage 2 2 :=
  advSeg_empty_pos ⟨2, 2, fun _ => 200⟩ (0, 0) none none none (some [(1, 1)])

/-- C2 amended: with an empty positive point list the builder does not
fail; it silently returns the all-zero mask, regardless of the image,
threshold, dilation count and negative points. -/
theorem c2_empty_positives_empty_mask (img : ImageData) (click : ℤ × ℤ)
    (ie : Option Bool) (th : Option ℚ) (di : Option ℕ) (ng : Option (List (ℤ × ℤ))) :
    advancedSmartSegmentation img click ⟨ie, th, di, some [], ng⟩
      = blankImage img.width img.height :=
  advSeg_empty_pos img click ie th di ng

lemma dilateStep_width (m : ImageData) : (dilateStep m).width = m.width := by
  unfold dilateStep
  exact (foldl_writes_dims m.width (fun p => hasSelectedNbr m p.1 p.2) 255 100 255 180
    (interiorCoords m.width m.height) (blankImage m.width m.height)).1

lemma dilateStep_height (m : ImageData) : (dilateStep m).height = m.height := by
  unfold dilateStep
  exact (foldl_writes_dims m.width (fun p => hasSelectedNbr m p.1 p.2) 255 100 255 180
    (interiorCoords m.width m.height) (blankImage m.width m.height)).2

lemma dilateStep_data (m : ImageData) (j : ℕ) :
    (dilateStep m).data j =
      if ∃ p ∈ interiorCoords m.width m.height,
          hasSelectedNbr m p.1 p.2 ∧ ((j / 4 : ℕ) : ℤ) = pixNum m.width p
      then chanVal 255 100 255 180 (j % 4) else 0 := by
  unfold dilateStep
  rw [foldl_writes_data m.width m.height (fun p => hasSelectedNbr m p.1 p.2) 255 100 255 180
    (interiorCoords m.width m.height) (blankImage m.width m.height) rfl rfl
    (fun p hp => interiorC_inBounds (mem_interiorCoords.mp hp)) j]
  rfl

/-- Byte-level value of a pixel channel of a dilation step, for an
in-bounds pixel and channel offset below 4. -/
lemma dilateStep_byte (m : ImageData) (p : ℤ × ℤ) (hp : inBoundsC m.width m.height p)
    (c : ℕ) (hc : c < 4) :
    (dilateStep m).data (pixNum m.width p * 4 + c).toNat =
      if interiorC m.width m.height p ∧ hasSelectedNbr m p.1 p.2
      then chanVal 255 100 255 180 c else 0 := by
  obtain ⟨hpn0, hpnlt⟩ := pixNum_range hp
  obtain ⟨pn, hpn⟩ := Int.eq_ofNat_of_zero_le hpn0
  have hj : (pixNum m.width p * 4 + c).toNat = pn * 4 + c := by omega
  rw [dilateStep_data, hj]
  have hdiv : (((pn * 4 + c) / 4 : ℕ) : ℤ) = pixNum m.width p := by
    rw [hpn]
    push_cast
    omega
  have hmod : (pn * 4 + c) % 4 = c := by omega
  rw [hmod]
  by_cases hcond : interiorC m.width m.height p ∧ hasSelectedNbr m p.1 p.2
  · rw [if_pos hcond, if_pos ⟨p, mem_interiorCoords.mpr hcond.1, hcond.2, hdiv⟩]
  · rw [if_neg hcond, if_neg ?hne]
    case hne =>
      rintro ⟨q, hq, hnbr, hjq⟩
      have hqi := mem_interiorCoords.mp hq
      have : q = p := pixNum_inj (interiorC_inBounds hqi) hp (by rw [← hdiv, hjq])
      subst this
      exact hcond ⟨hqi, hnbr⟩

lemma alphaAt_dilateStep (m : ImageData) (p : ℤ × ℤ) (hp : inBoundsC m.width m.height p) :
    alphaAt (dilateStep m) p =
      if interiorC m.width m.height p ∧ hasSelectedNbr m p.1 p.2 then 180 else 0 := by
  unfold alphaAt readByte
  rw [dilateStep_width, dilateStep_height]
  obtain ⟨hpn0, hpnlt⟩ := pixNum_range hp
  rw [if_pos (idx_in_range ⟨hpn0, hpnlt⟩ (by omega))]
  have h3 : (3 : ℤ) = ((3 : ℕ) : ℤ) := rfl
  rw [h3, dilateStep_byte m p hp 3 (by omega)]
  rfl

/-- Selected-pixel characterisation of one dilation step: exactly the
interior pixels with a selected 3 by 3 neighborhood. -/
lemma selectedPx_dilateStep (m : ImageData) (p : ℤ × ℤ) :
    selectedPx (dilateStep m) p ↔
      interiorC m.width m.height p ∧ hasSelectedNbr m p.1 p.2 := by
  unfold selectedPx
  rw [dilateStep_width, dilateStep_height]
  constructor
  · rintro ⟨hpb, hlt⟩
    rw [alphaAt_dilateStep m p hpb] at hlt
    by_cases hcond : interiorC m.width m.height p ∧ hasSelectedNbr m p.1 p.2
    · exact hcond
    · rw [if_neg hcond] at hlt
      omega
  · rintro ⟨hint, hnbr⟩
    refine ⟨interiorC_inBounds hint, ?_⟩
    rw [alphaAt_dilateStep m p (interiorC_inBounds hint), if_pos ⟨hint, hnbr⟩]
    omega

/-- A selected pixel is its own 3 by 3 neighbor with a passing alpha. -/
lemma hasSelectedNbr_self {m : ImageData} {p : ℤ × ℤ}
    (hp : selectedPx m p) : hasSelectedNbr m p.1 p.2 := by
  obtain ⟨hpb, hlt⟩ := hp
  refine ⟨0, by simp, 0, by simp, ?_⟩
  have harith : ((p.2 + 0) * (m.width : ℤ) + (p.1 + 0)) * 4 + 3
      = pixNum m.width p * 4 + 3 := by
    unfold pixNum
    ring
  rw [harith]
  exact hlt

/-- One dilation step keeps every selected pixel of an interior-only
selection selected. -/
lemma dilateStep_extensive {m : ImageData}
    (hall : ∀ p, selectedPx m p → interiorC m.width m.height p) :
    ∀ p, selectedPx m p → selectedPx (dilateStep m) p := by
  intro p hp
  exact (selectedPx_dilateStep m p).mpr ⟨hall p hp, hasSelectedNbr_self hp⟩

lemma dilateMask_width (m : ImageData) (n : ℕ) : (dilateMask m n).width = m.width := by
  induction n with
  | zero => rfl
  | succ k ih => rw [dilateMask_succ, dilateStep_width, ih]

lemma dilateMask_height (m : ImageData) (n : ℕ) : (dilateMask m n).height = m.height := by
  induction n with
  | zero => rfl
  | succ k ih => rw [dilateMask_succ, dilateStep_height, ih]

lemma dilate_mono_aux : ∀ (k : ℕ) (m : ImageData),
    (∀ p, selectedPx m p → interiorC m.width m.height p) →
    ∀ p, selectedPx m p → selectedPx (dilateMask m k) p := by
  intro k
  induction k with
  | zero => exact fun m _ p hp => hp
  | succ n ih =>
    intro m hall p hp
    rw [dilateMask_succ]
    refine dilateStep_extensive ?_ p (ih m hall p hp)
    intro q hq
    rw [dilateMask_width, dilateMask_height]
    cases n with
    | zero => exact hall q hq
    | succ n2 =>
      rw [dilateMask_succ] at hq
      have := ((selectedPx_dilateStep _ q).mp hq).1
      rw [dilateMask_width, dilateMask_height] at this
      exact this

lemma dilateMask_add (m : ImageData) (a b : ℕ) :
    dilateMask m (a + b) = dilateMask (dilateMask m a) b := by
  unfold dilateMask
  rw [List.range_add, List.foldl_append, List.foldl_map]

/-- C3 counterexample: the claim asserts monotonicity for all masks and
all iteration pairs, but dilation never writes the border: a 3 by 3 mask
whose only selected pixel is the corner (0, 0) is selected at 0
iterations and unselected at 1 iteration. -/
theorem c3_dilation_monotonic_counterexample :
    selectedPx (dilateMask ⟨3, 3, fun i => if i < 4 then 255 else 0⟩ 0) (0, 0) ∧
    ¬ selectedPx (dilateMask ⟨3, 3, fun i => if i < 4 then 255 else 0⟩ 1) (0, 0) := by
  decide

/-- C3 amended: the selected-pixel set of dilateMask is monotone in the
iteration count from one iteration on; monotonicity from zero iterations
additionally requires every selected pixel of the starting mask to be
interior (the border, which dilation never writes, is otherwise dropped
between iterations 0 and 1). -/
theorem c3_dilation_monotonic_amended (mask : ImageData) (i j : ℕ) (hij : i ≤ j)
    (hstart : 1 ≤ i ∨ ∀ p, selectedPx mask p → interiorC mask.width mask.height p) :
    ∀ p, selectedPx (dilateMask mask i) p → selectedPx (dilateMask mask j) p := by
  intro p hp
  have hALL : ∀ q, selectedPx (dilateMask mask i) q →
      interiorC (dilateMask mask i).width (dilateMask mask i).height q := by
    cases i with
    | zero =>
      rcases hstart with h1 | hall
      · omega
      · exact hall
    | succ i2 =>
      intro q hq
      rw [dilateMask_succ] at hq
      rw [dilateMask_width, dilateMask_height]
      have := ((selectedPx_dilateStep _ q).mp hq).1
      rw [dilateMask_width, dilateMask_height] at this
      exact this
  have hj : dilateMask mask j = dilateMask (dilateMask mask i) (j - i) := by
    rw [← dilateMask_add, Nat.add_sub_cancel' hij]
  rw [hj]
  exact dilate_mono_aux (j - i) (dilateMask mask i) hALL p hp

/-- Witness for C3 amended: a 3 by 3 mask with only the center pixel
selected, from one to two iterations. -/
theorem c3_dilation_monotonic_witness :
    selectedPx (dilateMask ⟨3, 3, fun i => if 16 ≤ i ∧ i < 20 then 255 else 0⟩ 2) (1, 1) :=
  c3_dilation_monotonic_amended ⟨3, 3, fun i => if 16 ≤ i ∧ i < 20 then 255 else 0⟩ 1 2
    (by decide) (Or.inl (by decide)) (1, 1) (by decide)

lemma rasterize_eq_condFold (w h : ℕ) (rs : List (ℤ × ℤ)) :
    rasterizeRegions w h rs = rs.foldl
      (fun acc p => if (fun _ : ℤ × ℤ => True) p then writeRGBA acc (pixNum w p) 255 255 255 255
        else acc)
      (blankImage w h) := by
  unfold rasterizeRegions
  exact List.foldl_ext _ _ _ fun acc p _ => (if_pos trivial).symm

lemma rasterize_width (w h : ℕ) (rs : List (ℤ × ℤ)) :
    (rasterizeRegions w h rs).width = w := by
  rw [rasterize_eq_condFold]
  exact (foldl_writes_dims w (fun _ => True) 255 255 255 255 rs (blankImage w h)).1

lemma rasterize_height (w h : ℕ) (rs : List (ℤ × ℤ)) :
    (rasterizeRegions w h rs).height = h := by
  rw [rasterize_eq_condFold]
  exact (foldl_writes_dims w (fun _ => True) 255 255 255 255 rs (blankImage w h)).2

lemma rasterize_data (w h : ℕ) (rs : List (ℤ × ℤ)) (hrs : ∀ p ∈ rs, inBoundsC w h p)
    (j : ℕ) :
    (rasterizeRegions w h rs).data j =
      if ∃ p ∈ rs, ((j / 4 : ℕ) : ℤ) = pixNum w p
      then chanVal 255 255 255 255 (j % 4) else 0 := by
  rw [rasterize_eq_condFold,
    foldl_writes_data w h (fun _ => True) 255 255 255 255 rs (blankImage w h) rfl rfl hrs j]
  simp only [true_and]
  rfl

lemma rasterize_byte (w h : ℕ) (rs : List (ℤ × ℤ)) (hrs : ∀ p ∈ rs, inBoundsC w h p)
    (p : ℤ × ℤ) (hp : inBoundsC w h p) (c : ℕ) (hc : c < 4) :
    (rasterizeRegions w h rs).data (pixNum w p * 4 + c).toNat =
      if p ∈ rs then chanVal 255 255 255 255 c else 0 := by
  obtain ⟨hpn0, hpnlt⟩ := pixNum_range hp
  obtain ⟨pn, hpn⟩ := Int.eq_ofNat_of_zero_le hpn0
  have hj : (pixNum w p * 4 + c).toNat = pn * 4 + c := by omega
  rw [rasterize_data w h rs hrs, hj]
  have hdiv : (((pn * 4 + c) / 4 : ℕ) : ℤ) = pixNum w p := by
    rw [hpn]
    push_cast
    omega
  have hmod : (pn * 4 + c) % 4 = c := by omega
  rw [hmod]
  by_cases hmem : p ∈ rs
  · rw [if_pos hmem, if_pos ⟨p, hmem, hdiv⟩]
  · rw [if_neg hmem, if_neg ?hne]
    case hne =>
      rintro ⟨q, hq, hjq⟩
      have : q = p := pixNum_inj (hrs q hq) hp (by rw [← hdiv, hjq])
      subst this
      exact hmem hq

lemma pixelBytes_rasterize (w h : ℕ) (rs : List (ℤ × ℤ)) (hrs : ∀ p ∈ rs, inBoundsC w h p)
    (p : ℤ × ℤ) (hp : inBoundsC w h p) :
    pixelBytes (rasterizeRegions w h rs) p =
      if p ∈ rs then (255, 255, 255, 255) else (0, 0, 0, 0) := by
  unfold pixelBytes readByte
  rw [rasterize_width, rasterize_height]
  obtain ⟨hpn0, hpnlt⟩ := pixNum_range hp
  rw [if_pos (by constructor <;> linarith [hpn0, hpnlt])]
  rw [if_pos (idx_in_range ⟨hpn0, hpnlt⟩ (by omega : (0 : ℤ) ≤ 1 ∧ (1 : ℤ) < 4))]
  rw [if_pos (idx_in_range ⟨hpn0, hpnlt⟩ (by omega : (0 : ℤ) ≤ 2 ∧ (2 : ℤ) < 4))]
  rw [if_pos (idx_in_range ⟨hpn0, hpnlt⟩ (by omega : (0 : ℤ) ≤ 3 ∧ (3 : ℤ) < 4))]
  have h0 : pixNum w p * 4 = pixNum w p * 4 + ((0 : ℕ) : ℤ) := by simp
  have h1 : (1 : ℤ) = ((1 : ℕ) : ℤ) := rfl
  have h2 : (2 : ℤ) = ((2 : ℕ) : ℤ) := rfl
  have h3 : (3 : ℤ) = ((3 : ℕ) : ℤ) := rfl
  rw [h1, rasterize_byte w h rs hrs p hp 1 (by omega)]
  rw [h2, rasterize_byte w h rs hrs p hp 2 (by omega)]
  rw [h3, rasterize_byte w h rs hrs p hp 3 (by omega)]
  rw [h0, rasterize_byte w h rs hrs p hp 0 (by omega)]
  by_cases hmem : p ∈ rs
  · rw [if_pos hmem]
    simp [hmem, chanVal]
  · rw [if_neg hmem]
    simp [hmem, chanVal]

lemma pixelBytes_dilateStep (m : ImageData) (p : ℤ × ℤ)
    (hp : inBoundsC m.width m.height p) :
    pixelBytes (dilateStep m) p =
      if interiorC m.width m.height p ∧ hasSelectedNbr m p.1 p.2
      then (255, 100, 255, 180) else (0, 0, 0, 0) := by
  unfold pixelBytes readByte
  rw [dilateStep_width, dilateStep_height]
  obtain ⟨hpn0, hpnlt⟩ := pixNum_range hp
  rw [if_pos (by constructor <;> linarith [hpn0, hpnlt])]
  rw [if_pos (idx_in_range ⟨hpn0, hpnlt⟩ (by omega : (0 : ℤ) ≤ 1 ∧ (1 : ℤ) < 4))]
  rw [if_pos (idx_in_range ⟨hpn0, hpnlt⟩ (by omega : (0 : ℤ) ≤ 2 ∧ (2 : ℤ) < 4))]
  rw [if_pos (idx_in_range ⟨hpn0, hpnlt⟩ (by omega : (0 : ℤ) ≤ 3 ∧ (3 : ℤ) < 4))]
  have h0 : pixNum m.width p * 4 = pixNum m.width p * 4 + ((0 : ℕ) : ℤ) := by simp
  have h1 : (1 : ℤ) = ((1 : ℕ) : ℤ) := rfl
  have h2 : (2 : ℤ) = ((2 : ℕ) : ℤ) := rfl
  have h3 : (3 : ℤ) = ((3 : ℕ) : ℤ) := rfl
  rw [h1, dilateStep_byte m p hp 1 (by omega)]
  rw [h2, dilateStep_byte m p hp 2 (by omega)]
  rw [h3, dilateStep_byte m p hp 3 (by omega)]
  rw [h0, dilateStep_byte m p hp 0 (by omega)]
  by_cases hcond : interiorC m.width m.height p ∧ hasSelectedNbr m p.1 p.2
  · rw [if_pos hcond]
    simp [hcond, chanVal]
  · rw [if_neg hcond]
    simp [hcond, chanVal]

/-- C4 counterexample: the claim says every mask the pipeline produces
carries alpha 255 at fully selected pixels, including after dilateMask;
on a uniform 3 by 3 image with one dilation iteration, the center pixel
of the produced mask is selected but carries the highlight quadruple
(255, 100, 255, 180), with alpha 180, not 255. -/
theorem c4_mask_encoding_counterexample :
    pixelBytes (advancedSmartSegmentation ⟨3, 3, fun _ => 50⟩ (1, 1)
      ⟨none, none, some 1, none, none⟩) (1, 1) = (255, 100, 255, 180) := by
  have hcover := smartFloodFill_uniform_covers (fun _ => 50) 3 3 (50, 50, 50) (1, 1)
    ((0.15 : ℚ) * 0.8) (by decide) (by decide) (by norm_num)
  have hmem : ((1 : ℤ), (1 : ℤ)) ∈ buildRegions (fun _ => 50) 3 3 0.15 [(1, 1)] [] := by
    rw [buildRegions_mem]
    constructor
    · exact ⟨(1, 1), List.mem_singleton.mpr rfl, (hcover (1, 1)).mpr (by decide)⟩
    · rintro ⟨pnt, hpnt, _⟩
      exact absurd hpnt (List.not_mem_nil pnt)
  have hrs := buildRegions_inBounds (fun _ => 50) 3 3 0.15 [(1, 1)] []
  unfold advancedSmartSegmentation
  dsimp only [Option.getD_some, Option.getD_none]
  rw [if_pos (by norm_num : (0 : ℕ) < 1)]
  set mask := rasterizeRegions 3 3 (buildRegions (fun _ => 50) 3 3 0.15 [(1, 1)] []) with hmaskdef
  have hstep : dilateMask mask 1 = dilateStep mask := by
    rw [show (1 : ℕ) = 0 + 1 from rfl, dilateMask_succ, dilateMask_zero]
  rw [hstep]
  have hmw : mask.width = 3 := rasterize_width 3 3 _
  have hmh : mask.height = 3 := rasterize_height 3 3 _
  have hp2 : inBoundsC mask.width mask.height (1, 1) := by
    rw [hmw, hmh]
    decide
  rw [pixelBytes_dilateStep mask (1, 1) hp2]
  rw [if_pos ?cond]
  case cond =>
    constructor
    · rw [hmw, hmh]
      decide
    · refine ⟨0, by simp, 0, by simp, ?_⟩
      have hidx : (((1 : ℤ) + 0) * (mask.width : ℤ) + (1 + 0)) * 4 + 3
          = pixNum mask.width (1, 1) * 4 + 3 := by
        unfold pixNum
        ring
      rw [hidx]
      have hbytes := pixelBytes_rasterize 3 3
        (buildRegions (fun _ => 50) 3 3 0.15 [(1, 1)] []) hrs (1, 1) (by decide)
      rw [if_pos hmem] at hbytes
      have h4 : readByte mask (pixNum mask.width (1, 1) * 4 + 3) = 255 :=
        congrArg (fun q => q.2.2.2) hbytes
      rw [h4]
      norm_num

/-- C4 amended: every pixel of a mask produced by
advancedSmartSegmentation is either all-zero (unselected), or, when no
dilation is requested, the opaque white quadruple (255, 255, 255, 255)
with alpha 255, or, when dilation is applied, the highlight quadruple
(255, 100, 255, 180) with alpha 180. -/
theorem c4_mask_encoding_amended (img : ImageData) (click : ℤ × ℤ) (opts : SegOptions)
    (p : ℤ × ℤ) (hp : inBoundsC img.width img.height p) :
    pixelBytes (advancedSmartSegmentation img click opts) p = (0, 0, 0, 0) ∨
    (opts.dilate.getD 3 = 0 ∧
      pixelBytes (advancedSmartSegmentation img click opts) p = (255, 255, 255, 255)) ∨
    (0 < opts.dilate.getD 3 ∧
      pixelBytes (advancedSmartSegmentation img click opts) p = (255, 100, 255, 180)) := by
  unfold advancedSmartSegmentation
  dsimp only
  set d := opts.dilate.getD 3 with hddef
  set regions := buildRegions img.data img.width img.height (opts.threshold.getD 0.15)
    (opts.positivePoints.getD [click]) (opts.negativePoints.getD []) with hregdef
  set mask := rasterizeRegions img.width img.height regions with hmaskdef
  have hrs : ∀ k ∈ regions, inBoundsC img.width img.height k :=
    buildRegions_inBounds img.data img.width img.height _ _ _
  by_cases hd : 0 < d
  · rw [if_pos hd]
    obtain ⟨d2, hdd⟩ : ∃ d2, d = d2 + 1 := ⟨d - 1, by omega⟩
    rw [hdd, dilateMask_succ]
    have hmw : (dilateMask mask d2).width = img.width := by
      rw [dilateMask_width, hmaskdef, rasterize_width]
    have hmh : (dilateMask mask d2).height = img.height := by
      rw [dilateMask_height, hmaskdef, rasterize_height]
    have hp2 : inBoundsC (dilateMask mask d2).width (dilateMask mask d2).height p := by
      rw [hmw, hmh]
      exact hp
    rw [pixelBytes_dilateStep _ p hp2]
    by_cases hcond : interiorC (dilateMask mask d2).width (dilateMask mask d2).height p ∧
        hasSelectedNbr (dilateMask mask d2) p.1 p.2
    · rw [if_pos hcond]
      exact Or.inr (Or.inr ⟨by omega, rfl⟩)
    · rw [if_neg hcond]
      exact Or.inl rfl
  · rw [if_neg hd]
    rw [hmaskdef, pixelBytes_rasterize img.width img.height regions hrs p hp]
    by_cases hmem : p ∈ regions
    · rw [if_pos hmem]
      exact Or.inr (Or.inl ⟨by omega, rfl⟩)
    · rw [if_neg hmem]
      exact Or.inl rfl

/-- Witness for C4 amended at a concrete input: a 1 by 1 all-zero image
with default options. -/
theorem c4_mask_encoding_witness :
    pixelBytes (advancedSmartSegmentation ⟨1, 1, fun _ => 0⟩ (0, 0)
      ⟨none, none, none, none, none⟩) (0, 0) = (0, 0, 0, 0) ∨
    ((⟨none, none, none, none, none⟩ : SegOptions).dilate.getD 3 = 0 ∧
      pixelBytes (advancedSmartSegmentation ⟨1, 1, fun _ => 0⟩ (0, 0)
        ⟨none, none, none, none, none⟩) (0, 0) = (255, 255, 255, 255)) ∨
    (0 < (⟨none, none, none, none, none⟩ : SegOptions).dilate.getD 3 ∧
      pixelBytes (advancedSmartSegmentation ⟨1, 1, fun _ => 0⟩ (0, 0)
        ⟨none, none, none, none, none⟩) (0, 0) = (255, 100, 255, 180)) :=
  c4_mask_encoding_amended ⟨1, 1, fun _ => 0⟩ (0, 0) ⟨none, none, none, none, none⟩ (0, 0)
    (by decide)

/-- C1, code bug: on a fully opaque 2 by 2 image and an all-zero mask of
the same dimensions, pixel number 1 (coordinate (1, 0)) has source alpha
255 and mask red 0, so the claim requires its object-layer alpha to be 0
and exactly one of the two layers to be opaque there; because the loops
write byte i * 4 + 3 instead of i + 3, the write lands out of range and
is discarded, and both layers keep alpha 255 at that pixel. -/
theorem c1_split_complementarity_bug :
    (splitLayers ⟨2, 2, fun i => if i < 16 then (if i % 4 = 3 then 255 else 10) else 0⟩
      (blankImage 2 2)).1.data 7 = 255 ∧
    (splitLayers ⟨2, 2, fun i => if i < 16 then (if i % 4 = 3 then 255 else 10) else 0⟩
      (blankImage 2 2)).2.data 7 = 255 ∧
    (⟨2, 2, fun i => if i < 16 then (if i % 4 = 3 then 255 else 10) else 0⟩ : ImageData).data 7
      = 255 ∧
    (blankImage 2 2).data 4 = 0 := by
  decide

/-- C9: Successful-run state transition: the SAM point set is cleared,
any prior layer with the background id is removed, and exactly the two
new layers are appended, background first and object second, so the
object layer is last in the list and renders on top. -/
theorem c9_segmentation_success_transition (s : EditorState)
    (bgId objId bgThumb objThumb : String) (bgData objData : ImageData) :
    (segmentationSuccess s bgId objId bgThumb objThumb bgData objData).samPoints = [] ∧
    (segmentationSuccess s bgId objId bgThumb objThumb bgData objData).layers =
      s.layers.filter (fun l => decide (l.id ≠ "background")) ++
        [⟨bgId, "Background (Unselected)", true, false, 100, "normal", some bgThumb,
          some bgData⟩,
         ⟨objId, "Selected Object", true, false, 100, "normal", some objThumb,
          some objData⟩] := by
  refine ⟨rfl, ?_⟩
  unfold segmentationSuccess addLayer removeLayer
  dsimp only
  by_cases hb : s.layers.any (fun l => decide (l.id = "background")) = true
  · rw [if_pos hb]
    simp [List.append_assoc]
  · rw [if_neg hb]
    have hfil : s.layers.filter (fun l => decide (l.id ≠ "background")) = s.layers := by
      apply List.filter_eq_self.mpr
      intro l hl
      simp only [decide_eq_true_iff]
      intro heq
      exact hb (List.any_eq_true.mpr ⟨l, hl, by simp [heq]⟩)
    rw [hfil]
    simp [List.append_assoc]
